import Mathlib

/-!
Verification of the dotted version-string comparison library.

Shallow embedding of the `version-compare` Rust library.  The façade
(`VersionCompare::compare`, `VersionCompare::compare_to`) is translated from
`src/lib.rs`.  The internal modules of the library (`comp_op`, `version`,
`version_part`) are not in the source tree, so the parser, the part model,
the comparator and the operator enumeration are modelled from the spec, as
noted on each definition.
-/

/-- Modelled from the spec: the `CompOp` enumeration of module `comp_op`
(missing from the source tree) — a closed set of six relational operators. -/
inductive CompOp : Type where
  | Eq
  | Ne
  | Lt
  | Le
  | Ge
  | Gt
  deriving DecidableEq, Repr

/-- Modelled from the spec: `CompOp::invert` of module `comp_op` (missing
from the source tree) — the fixed inversion table Eq↔Ne, Lt↔Gt, Le↔Ge. -/
def CompOp.invert : CompOp → CompOp
  | .Eq => .Ne
  | .Ne => .Eq
  | .Lt => .Gt
  | .Gt => .Lt
  | .Le => .Ge
  | .Ge => .Le

/-- Modelled from the spec: the `VersionPart` sum type of module `version_part`
(missing from the source tree) — one dot-separated segment, either a
non-negative integer or a non-empty opaque text token. -/
inductive VersionPart : Type where
  | Numeric (n : Nat)
  | Text (s : String)
  deriving DecidableEq, Repr

/-- Three-way comparison of naturals, as used for `Numeric` parts
("compare as integers"). -/
def cmpNat (a b : Nat) : Ordering :=
  if a < b then .lt else if b < a then .gt else .eq

/-- Lexicographic three-way comparison of character sequences by character
code, as used for `Text` parts. -/
def cmpChars : List Char → List Char → Ordering
  | [], [] => .eq
  | [], _ :: _ => .lt
  | _ :: _, [] => .gt
  | a :: as, b :: bs =>
    match cmpNat a.toNat b.toNat with
    | .eq => cmpChars as bs
    | o => o

/-- Modelled from the spec: the VersionPart-ordering contract of module
`version_part` (missing from the source tree) — Numeric vs Numeric as
integers, Text vs Text lexicographically, and Numeric always less than
Text. -/
def cmpPart : VersionPart → VersionPart → Ordering
  | .Numeric a, .Numeric b => cmpNat a b
  | .Text a, .Text b => cmpChars a.data b.data
  | .Numeric _, .Text _ => .lt
  | .Text _, .Numeric _ => .gt

/-- Modelled from the spec: the absence rule of module `version_part`
(missing from the source tree) — a present Numeric part equals absence iff
its value is zero, a present Text part is always greater than absence. -/
def partVsAbsent : VersionPart → Ordering
  | .Numeric n => if n = 0 then .eq else .gt
  | .Text _ => .gt

/-- Modelled from the spec: comparison of the trailing parts of the longer
version against absence (step 3 of the comparator of module `version`,
missing from the source tree). -/
def cmpRest : List VersionPart → Ordering
  | [] => .eq
  | p :: ps =>
    match partVsAbsent p with
    | .eq => cmpRest ps
    | o => o

/-- Modelled from the spec: the part-wise comparator of module `version`
(missing from the source tree) — walk both sequences index by index, the
first non-Equal part comparison decides; a length mismatch compares the
remaining parts against absence. -/
def cmpParts : List VersionPart → List VersionPart → Ordering
  | [], ys => (cmpRest ys).swap
  | xs, [] => cmpRest xs
  | x :: xs, y :: ys =>
    match cmpPart x y with
    | .eq => cmpParts xs ys
    | o => o

/-- Modelled from the spec: the `Version` type of module `version` (missing
from the source tree) — an ordered sequence of parts plus the original
source string. -/
structure Version : Type where
  version : String
  parts : List VersionPart
  deriving DecidableEq, Repr

/-- Modelled from the spec: characters accepted inside a segment — ASCII
alphanumerics plus the characters legal inside a Text segment; per §4.2 a
hyphen (and likewise `+`) is not a segment separator but becomes part of a
Text token, so `"1.0.0-alpha"` parses. -/
def allowedChar (c : Char) : Bool :=
  c.isAlphanum || c = '-' || c = '+'

/-- Numeric value of a digit sequence. -/
def digitsToNat (cs : List Char) : Nat :=
  cs.foldl (fun acc c => acc * 10 + (c.toNat - 48)) 0

/-- Modelled from the spec: the VersionPart constructor of module `version_part`
(missing from the source tree) — an all-digit segment becomes `Numeric`,
any other non-empty segment over the accepted alphabet becomes `Text`,
an empty or illegal segment is a parse failure. -/
def parseSegment (cs : List Char) : Option VersionPart :=
  if cs = [] then none
  else if ¬ cs.all allowedChar then none
  else if cs.all Char.isDigit then some (.Numeric (digitsToNat cs))
  else some (.Text ⟨cs⟩)

/-- Split a character sequence on the `.` delimiter; always returns at least
one (possibly empty) segment. -/
def splitDots : List Char → List (List Char)
  | [] => [[]]
  | c :: cs =>
    if c = '.' then [] :: splitDots cs
    else
      match splitDots cs with
      | [] => [[c]]
      | seg :: rest => (c :: seg) :: rest

/-- Modelled from the spec: `Version::from` of module `version` (missing
from the source tree) — split the raw string on `.`, build a VersionPart from
every segment, fail on empty input, empty segment or illegal character. -/
def Version.fromString (raw : String) : Option Version :=
  match (splitDots raw.data).mapM parseSegment with
  | some ps => some ⟨raw, ps⟩
  | none => none

/-- Map a three-way comparison result to the comparison outcome subset of
`CompOp` returned by `Version::compare`. -/
def orderingToCompOp : Ordering → CompOp
  | .lt => .Lt
  | .eq => .Eq
  | .gt => .Gt

/-- Modelled from the spec: `Version::compare` of module `version` (missing
from the source tree) — the part-wise comparator, yielding Eq, Lt or Gt. -/
def Version.compare (a b : Version) : CompOp :=
  orderingToCompOp (cmpParts a.parts b.parts)

/-- Modelled from the spec: evaluation of a comparison operator against a
three-way result (§4.4 of the spec; module `version` is missing from the
source tree). -/
def evaluateOp (r : Ordering) : CompOp → Bool
  | .Eq => r = .eq
  | .Ne => r ≠ .eq
  | .Lt => r = .lt
  | .Le => r ≠ .gt
  | .Gt => r = .gt
  | .Ge => r ≠ .lt

/-- Modelled from the spec: `Version::compare_to` of module `version`
(missing from the source tree) — evaluate the operator against the
part-wise comparison result. -/
def Version.compare_to (a b : Version) (op : CompOp) : Bool :=
  evaluateOp (cmpParts a.parts b.parts) op

/-- `VersionCompare::compare` from `src/lib.rs`: parse both strings, fail
if either does not parse, otherwise compare the two versions. -/
def VersionCompare.compare (a b : String) : Except Unit CompOp :=
  match Version.fromString a, Version.fromString b with
  | some va, some vb => .ok (va.compare vb)
  | _, _ => .error ()

/-- `VersionCompare::compare_to` from `src/lib.rs`: parse both strings, fail
if either does not parse, otherwise evaluate the operator. -/
def VersionCompare.compare_to (a b : String) (op : CompOp) : Except Unit Bool :=
  match Version.fromString a, Version.fromString b with
  | some va, some vb => .ok (va.compare_to vb op)
  | _, _ => .error ()

/-- Strip trailing `Numeric 0` parts from a part sequence. -/
def canon : List VersionPart → List VersionPart
  | [] => []
  | p :: ps =>
    match canon ps with
    | [] => if p = .Numeric 0 then [] else [p]
    | qs => p :: qs

/-- Plain lexicographic three-way comparison of part sequences, the shorter
sequence comparing less when it is a strict prefix. -/
def lexCmp : List VersionPart → List VersionPart → Ordering
  | [], [] => .eq
  | [], _ :: _ => .lt
  | _ :: _, [] => .gt
  | x :: xs, y :: ys =>
    match cmpPart x y with
    | .eq => lexCmp xs ys
    | o => o

/-! ## Basic lemmas on the part orderings -/

theorem cmpNat_eq_iff {a b : Nat} : cmpNat a b = .eq ↔ a = b := by
  rcases Nat.lt_trichotomy a b with h | h | h
  · simp [cmpNat, h]; omega
  · subst h; simp [cmpNat, Nat.lt_irrefl]
  · simp [cmpNat, h, Nat.lt_asymm h]; omega

theorem cmpNat_lt_iff {a b : Nat} : cmpNat a b = .lt ↔ a < b := by
  rcases Nat.lt_trichotomy a b with h | h | h
  · simp [cmpNat, h]
  · subst h; simp [cmpNat, Nat.lt_irrefl]
  · simp [cmpNat, h, Nat.lt_asymm h]

theorem cmpNat_gt_iff {a b : Nat} : cmpNat a b = .gt ↔ b < a := by
  rcases Nat.lt_trichotomy a b with h | h | h
  · simp [cmpNat, h, Nat.lt_asymm h]
  · subst h; simp [cmpNat, Nat.lt_irrefl]
  · simp [cmpNat, h, Nat.lt_asymm h]

theorem cmpNat_swap (a b : Nat) : cmpNat a b = (cmpNat b a).swap := by
  rcases Nat.lt_trichotomy a b with h | h | h
  · simp [cmpNat, h, Nat.lt_asymm h, Ordering.swap]
  · subst h; simp [cmpNat, Nat.lt_irrefl, Ordering.swap]
  · simp [cmpNat, h, Nat.lt_asymm h, Ordering.swap]

theorem cmpChars_eq_iff : ∀ {as bs : List Char}, cmpChars as bs = .eq ↔ as = bs := by
  intro as
  induction as with
  | nil => intro bs; cases bs <;> simp [cmpChars]
  | cons a as ih =>
    intro bs
    cases bs with
    | nil => simp [cmpChars]
    | cons b bs =>
      simp only [cmpChars]
      rcases h : cmpNat a.toNat b.toNat with _ | _ | _
      · simp only [List.cons.injEq]
        rw [cmpNat_lt_iff] at h
        constructor
        · intro hc; exact absurd hc (by simp)
        · rintro ⟨rfl, -⟩; omega
      · rw [cmpNat_eq_iff] at h
        have hab : a = b := by
          have h2 := congrArg Char.ofNat h
          rwa [Char.ofNat_toNat, Char.ofNat_toNat] at h2
        subst hab
        simp [ih]
      · simp only [List.cons.injEq]
        rw [cmpNat_gt_iff] at h
        constructor
        · intro hc; exact absurd hc (by simp)
        · rintro ⟨rfl, -⟩; omega

theorem cmpChars_swap : ∀ (as bs : List Char), cmpChars as bs = (cmpChars bs as).swap := by
  intro as
  induction as with
  | nil => intro bs; cases bs <;> rfl
  | cons a as ih =>
    intro bs
    cases bs with
    | nil => rfl
    | cons b bs =>
      simp only [cmpChars]
      rw [cmpNat_swap a.toNat b.toNat]
      rcases cmpNat b.toNat a.toNat with _ | _ | _ <;> simp [Ordering.swap, ih]

theorem cmpChars_lt_trans : ∀ {as bs cs : List Char},
    cmpChars as bs = .lt → cmpChars bs cs = .lt → cmpChars as cs = .lt := by
  intro as
  induction as with
  | nil =>
    intro bs cs h1 h2
    cases bs with
    | nil => exact h2
    | cons b bs =>
      cases cs with
      | nil => simp [cmpChars] at h2
      | cons c cs => rfl
  | cons a as ih =>
    intro bs cs h1 h2
    cases bs with
    | nil => simp [cmpChars] at h1
    | cons b bs =>
      cases cs with
      | nil => simp [cmpChars] at h2
      | cons c cs =>
        simp only [cmpChars] at h1 h2 ⊢
        rcases hab : cmpNat a.toNat b.toNat with _ | _ | _ <;>
          rcases hbc : cmpNat b.toNat c.toNat with _ | _ | _ <;>
          simp only [hab, hbc] at h1 h2
        · have hac : cmpNat a.toNat c.toNat = .lt := by
            rw [cmpNat_lt_iff] at hab ⊢
            rw [cmpNat_lt_iff] at hbc
            omega
          simp [hac]
        · have hac : cmpNat a.toNat c.toNat = .lt := by
            rw [cmpNat_lt_iff] at hab ⊢
            rw [cmpNat_eq_iff] at hbc
            omega
          simp [hac]
        · exact absurd h2 (by simp)
        · have hac : cmpNat a.toNat c.toNat = .lt := by
            rw [cmpNat_lt_iff] at hbc ⊢
            rw [cmpNat_eq_iff] at hab
            omega
          simp [hac]
        · have hac : cmpNat a.toNat c.toNat = .eq := by
            rw [cmpNat_eq_iff] at hab hbc ⊢
            omega
          simp [hac]
          exact ih h1 h2
        · exact absurd h2 (by simp)
        · exact absurd h1 (by simp)
        · exact absurd h1 (by simp)
        · exact absurd h1 (by simp)

theorem cmpPart_eq_iff {p q : VersionPart} : cmpPart p q = .eq ↔ p = q := by
  cases p with
  | Numeric a =>
    cases q with
    | Numeric b => simp [cmpPart, cmpNat_eq_iff]
    | Text t => simp [cmpPart]
  | Text s =>
    cases q with
    | Numeric b => simp [cmpPart]
    | Text t =>
      rcases s with ⟨ls⟩
      rcases t with ⟨mt⟩
      simp only [cmpPart, cmpChars_eq_iff]
      constructor
      · intro h; rw [h]
      · intro h
        injection h with h2
        injection h2

theorem cmpPart_refl (p : VersionPart) : cmpPart p p = .eq :=
  cmpPart_eq_iff.mpr rfl

theorem cmpPart_swap (p q : VersionPart) : cmpPart p q = (cmpPart q p).swap := by
  cases p <;> cases q <;>
    simp only [cmpPart, Ordering.swap] <;>
    first
      | rfl
      | exact cmpNat_swap _ _
      | exact cmpChars_swap _ _

theorem cmpPart_lt_trans {p q r : VersionPart} :
    cmpPart p q = .lt → cmpPart q r = .lt → cmpPart p r = .lt := by
  intro h1 h2
  cases p <;> cases q <;> cases r <;>
    simp only [cmpPart] at h1 h2 ⊢ <;>
    first
      | rfl
      | exact Ordering.noConfusion h1
      | exact Ordering.noConfusion h2
      | (rw [cmpNat_lt_iff] at h1 h2 ⊢; omega)
      | exact cmpChars_lt_trans h1 h2

/-! ## Canonical forms: stripping trailing zero-numeric parts -/

theorem partVsAbsent_zero : partVsAbsent (.Numeric 0) = .eq := rfl

theorem partVsAbsent_of_ne {p : VersionPart} (h : p ≠ .Numeric 0) :
    partVsAbsent p = .gt := by
  cases p with
  | Numeric n =>
    have hn : n ≠ 0 := by rintro rfl; exact h rfl
    simp [partVsAbsent, hn]
  | Text s => rfl

theorem cmpPart_zero_not_lt (x : VersionPart) : cmpPart x (.Numeric 0) ≠ .lt := by
  cases x with
  | Numeric n =>
    simp only [cmpPart]
    rw [Ne, cmpNat_lt_iff]
    omega
  | Text s => simp [cmpPart]

theorem cmpPart_zero_not_gt (y : VersionPart) : cmpPart (.Numeric 0) y ≠ .gt := by
  cases y with
  | Numeric n =>
    simp only [cmpPart]
    rw [Ne, cmpNat_gt_iff]
    omega
  | Text s => simp [cmpPart]

theorem cmpRest_spec : ∀ xs, cmpRest xs = if canon xs = [] then .eq else .gt := by
  intro xs
  induction xs with
  | nil => rfl
  | cons p ps ih =>
    by_cases hp : p = VersionPart.Numeric 0
    · subst hp
      have h1 : cmpRest (VersionPart.Numeric 0 :: ps) = cmpRest ps := by
        simp [cmpRest, partVsAbsent]
      rw [h1, ih]
      rcases hc : canon ps with _ | ⟨q, qs⟩
      · simp [canon, hc]
      · simp [canon, hc]
    · have h1 : cmpRest (p :: ps) = .gt := by
        simp [cmpRest, partVsAbsent_of_ne hp]
      rw [h1]
      rcases hc : canon ps with _ | ⟨q, qs⟩
      · simp [canon, hc, hp]
      · simp [canon, hc]

theorem canon_nil_iff : ∀ {xs : List VersionPart},
    canon xs = [] ↔ ∀ p ∈ xs, p = VersionPart.Numeric 0 := by
  intro xs
  induction xs with
  | nil => simp [canon]
  | cons p ps ih =>
    rcases hc : canon ps with _ | ⟨q, qs⟩
    · rw [hc] at ih
      by_cases hp : p = VersionPart.Numeric 0
      · simp [canon, hc, hp]
        exact ih.mp rfl
      · simp [canon, hc, hp]
    · rw [hc] at ih
      simp only [canon, hc]
      constructor
      · intro h; exact absurd h (by simp)
      · intro h
        have : ∀ p ∈ ps, p = VersionPart.Numeric 0 := fun x hx => h x (by simp [hx])
        exact absurd (ih.mpr this) (by simp)

theorem lexCmp_swap : ∀ (xs ys : List VersionPart), lexCmp xs ys = (lexCmp ys xs).swap := by
  intro xs
  induction xs with
  | nil => intro ys; cases ys <;> rfl
  | cons x xs ih =>
    intro ys
    cases ys with
    | nil => rfl
    | cons y ys =>
      simp only [lexCmp]
      rw [cmpPart_swap x y]
      rcases cmpPart y x with _ | _ | _ <;> simp [Ordering.swap, ih]

theorem lexCmp_lt_trans : ∀ {xs ys zs : List VersionPart},
    lexCmp xs ys = .lt → lexCmp ys zs = .lt → lexCmp xs zs = .lt := by
  intro xs
  induction xs with
  | nil =>
    intro ys zs h1 h2
    cases ys with
    | nil => exact h2
    | cons y ys =>
      cases zs with
      | nil => simp [lexCmp] at h2
      | cons z zs => rfl
  | cons x xs ih =>
    intro ys zs h1 h2
    cases ys with
    | nil => simp [lexCmp] at h1
    | cons y ys =>
      cases zs with
      | nil => simp [lexCmp] at h2
      | cons z zs =>
        simp only [lexCmp] at h1 h2 ⊢
        rcases hxy : cmpPart x y with _ | _ | _ <;>
          rcases hyz : cmpPart y z with _ | _ | _ <;>
          simp only [hxy, hyz] at h1 h2
        · have hxz := cmpPart_lt_trans hxy hyz
          simp [hxz]
        · obtain rfl := cmpPart_eq_iff.mp hyz
          simp [hxy]
        · exact absurd h2 (by simp)
        · obtain rfl := cmpPart_eq_iff.mp hxy
          simp [hyz]
        · obtain rfl := cmpPart_eq_iff.mp hxy
          obtain rfl := cmpPart_eq_iff.mp hyz
          simp [cmpPart_refl]
          exact ih h1 h2
        · exact absurd h2 (by simp)
        · exact absurd h1 (by simp)
        · exact absurd h1 (by simp)
        · exact absurd h1 (by simp)

theorem lexCmp_canon_cons (x : VersionPart) (xs ys : List VersionPart) :
    lexCmp (canon (x :: xs)) (canon (x :: ys)) = lexCmp (canon xs) (canon ys) := by
  rcases h1 : canon xs with _ | ⟨p, ps⟩ <;> rcases h2 : canon ys with _ | ⟨q, qs⟩ <;>
    simp only [canon, h1, h2]
  · by_cases hx : x = VersionPart.Numeric 0
    · simp [hx, lexCmp]
    · simp [hx, lexCmp, cmpPart_refl]
  · by_cases hx : x = VersionPart.Numeric 0
    · simp [hx, lexCmp]
    · simp [hx, lexCmp, cmpPart_refl]
  · by_cases hx : x = VersionPart.Numeric 0
    · simp [hx, lexCmp]
    · simp [hx, lexCmp, cmpPart_refl]
  · simp [lexCmp, cmpPart_refl]

theorem lexCmp_canon_cons_lt {x y : VersionPart} (hxy : cmpPart x y = .lt)
    (xs ys : List VersionPart) :
    lexCmp (canon (x :: xs)) (canon (y :: ys)) = .lt := by
  have hy : y ≠ VersionPart.Numeric 0 := by
    rintro rfl
    exact cmpPart_zero_not_lt x hxy
  rcases h1 : canon xs with _ | ⟨p, ps⟩ <;> rcases h2 : canon ys with _ | ⟨q, qs⟩ <;>
    simp only [canon, h1, h2]
  · by_cases hx : x = VersionPart.Numeric 0
    · simp [hx, hy, lexCmp]
    · simp [hx, hy, lexCmp, hxy]
  · by_cases hx : x = VersionPart.Numeric 0
    · simp [hx, lexCmp]
    · simp [hx, lexCmp, hxy]
  · simp [hy, lexCmp, hxy]
  · simp [lexCmp, hxy]

theorem lexCmp_canon_cons_gt {x y : VersionPart} (hxy : cmpPart x y = .gt)
    (xs ys : List VersionPart) :
    lexCmp (canon (x :: xs)) (canon (y :: ys)) = .gt := by
  have hyx : cmpPart y x = .lt := by
    rw [cmpPart_swap y x, hxy]
    rfl
  rw [lexCmp_swap, lexCmp_canon_cons_lt hyx ys xs]
  rfl

theorem cmpParts_eq_lexCmp : ∀ xs ys : List VersionPart,
    cmpParts xs ys = lexCmp (canon xs) (canon ys) := by
  intro xs
  induction xs with
  | nil =>
    intro ys
    cases ys with
    | nil => rfl
    | cons y ys =>
      show (cmpRest (y :: ys)).swap = _
      rw [cmpRest_spec]
      rcases hc : canon (y :: ys) with _ | ⟨q, qs⟩
      · simp [hc, lexCmp, Ordering.swap]
      · simp [hc, lexCmp, Ordering.swap]
  | cons x xs ih =>
    intro ys
    cases ys with
    | nil =>
      show cmpRest (x :: xs) = _
      rw [cmpRest_spec]
      rcases hc : canon (x :: xs) with _ | ⟨q, qs⟩
      · simp [hc, lexCmp]
      · simp [hc, lexCmp]
    | cons y ys =>
      simp only [cmpParts]
      rcases hxy : cmpPart x y with _ | _ | _
      · rw [lexCmp_canon_cons_lt hxy]
      · obtain rfl := cmpPart_eq_iff.mp hxy
        rw [ih, lexCmp_canon_cons]
      · rw [lexCmp_canon_cons_gt hxy]

theorem cmpParts_swap (xs ys : List VersionPart) :
    cmpParts xs ys = (cmpParts ys xs).swap := by
  rw [cmpParts_eq_lexCmp, cmpParts_eq_lexCmp, lexCmp_swap]

theorem cmpParts_lt_trans {xs ys zs : List VersionPart}
    (h1 : cmpParts xs ys = .lt) (h2 : cmpParts ys zs = .lt) :
    cmpParts xs zs = .lt := by
  rw [cmpParts_eq_lexCmp] at h1 h2 ⊢
  exact lexCmp_lt_trans h1 h2

/-! ## Façade lemmas -/

theorem orderingToCompOp_eq_lt {o : Ordering} :
    orderingToCompOp o = CompOp.Lt ↔ o = .lt := by
  cases o <;> simp [orderingToCompOp]

theorem orderingToCompOp_eq_eq {o : Ordering} :
    orderingToCompOp o = CompOp.Eq ↔ o = .eq := by
  cases o <;> simp [orderingToCompOp]

theorem orderingToCompOp_eq_gt {o : Ordering} :
    orderingToCompOp o = CompOp.Gt ↔ o = .gt := by
  cases o <;> simp [orderingToCompOp]

theorem compare_ok_of_parse {a b : String} {va vb : Version}
    (ha : Version.fromString a = some va) (hb : Version.fromString b = some vb) :
    VersionCompare.compare a b = Except.ok (va.compare vb) := by
  unfold VersionCompare.compare
  rw [ha, hb]

theorem compare_to_ok_of_parse {a b : String} {va vb : Version} (op : CompOp)
    (ha : Version.fromString a = some va) (hb : Version.fromString b = some vb) :
    VersionCompare.compare_to a b op = Except.ok (va.compare_to vb op) := by
  unfold VersionCompare.compare_to
  rw [ha, hb]

theorem compare_ok_inv {a b : String} {c : CompOp}
    (h : VersionCompare.compare a b = Except.ok c) :
    ∃ va vb, Version.fromString a = some va ∧ Version.fromString b = some vb ∧
      orderingToCompOp (cmpParts va.parts vb.parts) = c := by
  unfold VersionCompare.compare at h
  rcases hva : Version.fromString a with _ | va <;>
    rcases hvb : Version.fromString b with _ | vb <;>
    rw [hva, hvb] at h <;>
    simp at h
  exact ⟨va, vb, rfl, rfl, by rw [← h]; rfl⟩

/-! ## Key comparator lemmas for the tie-break rules -/

theorem cmpParts_nil_left (ys : List VersionPart) :
    cmpParts [] ys = (cmpRest ys).swap := by
  cases ys <;> rfl

theorem cmpParts_nil_right (xs : List VersionPart) :
    cmpParts xs [] = cmpRest xs := by
  cases xs <;> rfl

theorem cmpParts_append_zeros {zs : List VersionPart}
    (hz : ∀ p ∈ zs, p = VersionPart.Numeric 0) :
    ∀ xs, cmpParts xs (xs ++ zs) = .eq := by
  intro xs
  induction xs with
  | nil =>
    rw [List.nil_append, cmpParts_nil_left, cmpRest_spec, canon_nil_iff.mpr hz]
    rfl
  | cons x xs ih =>
    simp only [List.cons_append, cmpParts, cmpPart_refl]
    exact ih

theorem cmpParts_append_text (t : String) (rest : List VersionPart) :
    ∀ xs, cmpParts xs (xs ++ VersionPart.Text t :: rest) = .lt := by
  intro xs
  induction xs with
  | nil =>
    rw [List.nil_append, cmpParts_nil_left]
    simp [cmpRest, partVsAbsent, Ordering.swap]
  | cons x xs ih =>
    simp only [List.cons_append, cmpParts, cmpPart_refl]
    exact ih

theorem cmpParts_num_text (pc r1 r2 : List VersionPart) (n : Nat) (t : String) :
    cmpParts (pc ++ VersionPart.Numeric n :: r1) (pc ++ VersionPart.Text t :: r2) = .lt := by
  induction pc with
  | nil => simp [cmpParts, cmpPart]
  | cons p pc ih =>
    simp only [List.cons_append, cmpParts, cmpPart_refl]
    exact ih

theorem forall₂_cmpPart_eq {l1 l2 : List VersionPart}
    (h : List.Forall₂ (fun p q => cmpPart p q = Ordering.eq) l1 l2) : l1 = l2 := by
  induction h with
  | nil => rfl
  | cons hpq _ ih => rw [cmpPart_eq_iff.mp hpq, ih]

/-! ## Claim theorems -/

/-- C1 (trailing-zero rule): for every pair of valid version strings where
one extends the other only by trailing zero-numeric segments, `compare`
returns Eq in both orders; in particular `compare "1.0.0" "1" = Eq` and
`compare "1.2.0.0" "1.2" = Eq`. -/
theorem compare_trailing_zero_rule :
    (∀ (a b : String) (va vb : Version) (zs : List VersionPart),
        Version.fromString a = some va →
        Version.fromString b = some vb →
        vb.parts = va.parts ++ zs →
        (∀ p ∈ zs, p = VersionPart.Numeric 0) →
        VersionCompare.compare a b = Except.ok CompOp.Eq ∧
        VersionCompare.compare b a = Except.ok CompOp.Eq) ∧
    VersionCompare.compare "1.0.0" "1" = Except.ok CompOp.Eq ∧
    VersionCompare.compare "1.2.0.0" "1.2" = Except.ok CompOp.Eq := by
  refine ⟨?_, rfl, rfl⟩
  intro a b va vb zs ha hb hext hz
  have key : cmpParts va.parts vb.parts = .eq := by
    rw [hext]
    exact cmpParts_append_zeros hz va.parts
  have key2 : cmpParts vb.parts va.parts = .eq := by
    rw [cmpParts_swap, key]
    rfl
  constructor
  · rw [compare_ok_of_parse ha hb]
    unfold Version.compare
    rw [key]
    rfl
  · rw [compare_ok_of_parse hb ha]
    unfold Version.compare
    rw [key2]
    rfl

/-- Witness for C1 at `"1"` and `"1.0.0"`. -/
theorem compare_trailing_zero_rule_witness :
    VersionCompare.compare "1" "1.0.0" = Except.ok CompOp.Eq ∧
    VersionCompare.compare "1.0.0" "1" = Except.ok CompOp.Eq :=
  compare_trailing_zero_rule.1 "1" "1.0.0"
    ⟨"1", [.Numeric 1]⟩ ⟨"1.0.0", [.Numeric 1, .Numeric 0, .Numeric 0]⟩
    [.Numeric 0, .Numeric 0] rfl rfl rfl (by decide)

/-- C2 (trailing-text rule): when the common prefix of two valid versions
compares Equal part by part and the first extra segment of the longer version is
a Text part, the longer version is strictly greater; in particular
`compare "1.0" "1.0a" = Lt`. -/
theorem compare_trailing_text_rule :
    (∀ (a b : String) (va vb : Version) (pc : List VersionPart)
        (t : String) (rest : List VersionPart),
        Version.fromString a = some va →
        Version.fromString b = some vb →
        List.Forall₂ (fun p q => cmpPart p q = Ordering.eq) va.parts pc →
        vb.parts = pc ++ VersionPart.Text t :: rest →
        VersionCompare.compare a b = Except.ok CompOp.Lt ∧
        VersionCompare.compare b a = Except.ok CompOp.Gt) ∧
    VersionCompare.compare "1.0" "1.0a" = Except.ok CompOp.Lt := by
  refine ⟨?_, rfl⟩
  intro a b va vb pc t rest ha hb hpre hext
  obtain rfl := forall₂_cmpPart_eq hpre
  have key : cmpParts va.parts vb.parts = .lt := by
    rw [hext]
    exact cmpParts_append_text t rest va.parts
  have key2 : cmpParts vb.parts va.parts = .gt := by
    rw [cmpParts_swap, key]
    rfl
  constructor
  · rw [compare_ok_of_parse ha hb]
    unfold Version.compare
    rw [key]
    rfl
  · rw [compare_ok_of_parse hb ha]
    unfold Version.compare
    rw [key2]
    rfl

/-- Witness for C2 at `"1.0"` and `"1.0.a"`. -/
theorem compare_trailing_text_rule_witness :
    VersionCompare.compare "1.0" "1.0.a" = Except.ok CompOp.Lt ∧
    VersionCompare.compare "1.0.a" "1.0" = Except.ok CompOp.Gt :=
  compare_trailing_text_rule.1 "1.0" "1.0.a"
    ⟨"1.0", [.Numeric 1, .Numeric 0]⟩
    ⟨"1.0.a", [.Numeric 1, .Numeric 0, .Text "a"]⟩
    [.Numeric 1, .Numeric 0] "a" []
    rfl rfl (.cons rfl (.cons rfl .nil)) rfl

/-- C3 counterexample: the concrete example of the claim fails on the code — at
the first differing index `"1.alpha"` holds Text `"alpha"` and `"1.1"`
holds Numeric 1, and since Numeric is less than Text the comparison yields
Gt, not Lt as the claim states. -/
theorem compare_numeric_text_example_counter :
    (VersionCompare.compare "1.alpha" "1.1" = Except.ok CompOp.Lt) = False := by
  have he : VersionCompare.compare "1.alpha" "1.1" = Except.ok CompOp.Gt := rfl
  rw [he]
  simp

/-- C3 (amended, numeric-before-text rule): at the first index where two
valid versions differ, if one holds a Numeric part and the other a Text
part, the version with the Numeric part compares less; in particular
`compare "1.alpha" "1.1" = Gt` (the Text side is greater). -/
theorem compare_numeric_before_text_rule :
    (∀ (a b : String) (va vb : Version) (pc r1 r2 : List VersionPart)
        (n : Nat) (t : String),
        Version.fromString a = some va →
        Version.fromString b = some vb →
        va.parts = pc ++ VersionPart.Numeric n :: r1 →
        vb.parts = pc ++ VersionPart.Text t :: r2 →
        VersionCompare.compare a b = Except.ok CompOp.Lt ∧
        VersionCompare.compare b a = Except.ok CompOp.Gt) ∧
    VersionCompare.compare "1.alpha" "1.1" = Except.ok CompOp.Gt := by
  refine ⟨?_, rfl⟩
  intro a b va vb pc r1 r2 n t ha hb hva hvb
  have key : cmpParts va.parts vb.parts = .lt := by
    rw [hva, hvb]
    exact cmpParts_num_text pc r1 r2 n t
  have key2 : cmpParts vb.parts va.parts = .gt := by
    rw [cmpParts_swap, key]
    rfl
  constructor
  · rw [compare_ok_of_parse ha hb]
    unfold Version.compare
    rw [key]
    rfl
  · rw [compare_ok_of_parse hb ha]
    unfold Version.compare
    rw [key2]
    rfl

/-- Witness for the amended C3 rule at `"1.0"` and `"1.a"`. -/
theorem compare_numeric_before_text_rule_witness :
    VersionCompare.compare "1.0" "1.a" = Except.ok CompOp.Lt ∧
    VersionCompare.compare "1.a" "1.0" = Except.ok CompOp.Gt :=
  compare_numeric_before_text_rule.1 "1.0" "1.a"
    ⟨"1.0", [.Numeric 1, .Numeric 0]⟩ ⟨"1.a", [.Numeric 1, .Text "a"]⟩
    [.Numeric 1] [] [] 0 "a" rfl rfl rfl rfl

/-- C4: whenever `compare` succeeds, the success value is Eq, Lt or Gt
only — never Le, Ge or Ne. -/
theorem compare_result_subset (a b : String) (c : CompOp)
    (h : VersionCompare.compare a b = Except.ok c) :
    c = CompOp.Eq ∨ c = CompOp.Lt ∨ c = CompOp.Gt := by
  obtain ⟨va, vb, -, -, hc⟩ := compare_ok_inv h
  rcases ho : cmpParts va.parts vb.parts with _ | _ | _ <;>
    rw [ho] at hc <;> rw [← hc] <;> simp [orderingToCompOp]

/-- Witness for C4 at `"1.0.0-alpha"` and `"1"`, a pair whose first
component holds a hyphenated Text segment. -/
theorem compare_result_subset_witness :
    CompOp.Gt = CompOp.Eq ∨ CompOp.Gt = CompOp.Lt ∨ CompOp.Gt = CompOp.Gt :=
  compare_result_subset "1.0.0-alpha" "1" CompOp.Gt rfl

/-- C5: `compare` and `compare_to` fail exactly when at least one input
fails to parse; in particular `compare "" "1.0"` and `compare "1..0" "1.0"`
both fail. -/
theorem compare_error_iff :
    (∀ a b : String,
      (VersionCompare.compare a b = Except.error () ↔
        Version.fromString a = none ∨ Version.fromString b = none) ∧
      ∀ op : CompOp,
        VersionCompare.compare_to a b op = Except.error () ↔
          Version.fromString a = none ∨ Version.fromString b = none) ∧
    VersionCompare.compare "" "1.0" = Except.error () ∧
    VersionCompare.compare "1..0" "1.0" = Except.error () := by
  refine ⟨?_, rfl, rfl⟩
  intro a b
  constructor
  · unfold VersionCompare.compare
    rcases Version.fromString a with _ | va <;>
      rcases Version.fromString b with _ | vb <;> simp
  · intro op
    unfold VersionCompare.compare_to
    rcases Version.fromString a with _ | va <;>
      rcases Version.fromString b with _ | vb <;> simp

/-- C6 (antisymmetry): for all valid version strings, `compare` in the two
orders gives inverse outcomes — Lt iff Gt, and Eq iff Eq. -/
theorem compare_antisym (a b : String) (va vb : Version)
    (ha : Version.fromString a = some va) (hb : Version.fromString b = some vb) :
    (VersionCompare.compare a b = Except.ok CompOp.Lt ↔
      VersionCompare.compare b a = Except.ok CompOp.Gt) ∧
    (VersionCompare.compare a b = Except.ok CompOp.Eq ↔
      VersionCompare.compare b a = Except.ok CompOp.Eq) := by
  rw [compare_ok_of_parse ha hb, compare_ok_of_parse hb ha]
  unfold Version.compare
  rw [cmpParts_swap va.parts vb.parts]
  rcases cmpParts vb.parts va.parts with _ | _ | _ <;>
    simp [orderingToCompOp, Ordering.swap]

/-- Witness for C6 at `"1"` and `"2"`. -/
theorem compare_antisym_witness :
    (VersionCompare.compare "1" "2" = Except.ok CompOp.Lt ↔
      VersionCompare.compare "2" "1" = Except.ok CompOp.Gt) ∧
    (VersionCompare.compare "1" "2" = Except.ok CompOp.Eq ↔
      VersionCompare.compare "2" "1" = Except.ok CompOp.Eq) :=
  compare_antisym "1" "2" ⟨"1", [.Numeric 1]⟩ ⟨"2", [.Numeric 2]⟩ rfl rfl

/-- C7 (transitivity): if `compare v1 v2 = Lt` and `compare v2 v3 = Lt`
then `compare v1 v3 = Lt`. -/
theorem compare_lt_trans (v1 v2 v3 : String)
    (h1 : VersionCompare.compare v1 v2 = Except.ok CompOp.Lt)
    (h2 : VersionCompare.compare v2 v3 = Except.ok CompOp.Lt) :
    VersionCompare.compare v1 v3 = Except.ok CompOp.Lt := by
  obtain ⟨w1, w2, hw1, hw2, hc1⟩ := compare_ok_inv h1
  obtain ⟨w2x, w3, hw2x, hw3, hc2⟩ := compare_ok_inv h2
  obtain rfl : w2x = w2 := by
    rw [hw2] at hw2x
    exact (Option.some.inj hw2x).symm
  rw [orderingToCompOp_eq_lt] at hc1 hc2
  rw [compare_ok_of_parse hw1 hw3]
  unfold Version.compare
  rw [cmpParts_lt_trans hc1 hc2]
  rfl

/-- Witness for C7 at `"1"`, `"2"`, `"3"`. -/
theorem compare_lt_trans_witness :
    VersionCompare.compare "1" "3" = Except.ok CompOp.Lt :=
  compare_lt_trans "1" "2" "3" rfl rfl

/-- Evaluating the inverted operator negates the evaluation whenever the
three-way result is not Equal. -/
theorem evaluateOp_invert {r : Ordering} (h : r ≠ .eq) (op : CompOp) :
    evaluateOp r op.invert = !(evaluateOp r op) := by
  cases r
  · cases op <;> rfl
  · exact absurd rfl h
  · cases op <;> rfl

/-- C8 (predicate consistency): for valid versions whose three-way
comparison is not Eq, `compare_to` with an operator and with its inverse
return negated booleans; in particular
`compare_to "1.2.3" "1.2" Ne = Ok true`. -/
theorem compare_to_invert_consistency :
    (∀ (a b : String) (va vb : Version) (op : CompOp),
        Version.fromString a = some va →
        Version.fromString b = some vb →
        cmpParts va.parts vb.parts ≠ .eq →
        ∃ r : Bool,
          VersionCompare.compare_to a b op = Except.ok r ∧
          VersionCompare.compare_to a b op.invert = Except.ok (!r)) ∧
    VersionCompare.compare_to "1.2.3" "1.2" CompOp.Ne = Except.ok true := by
  refine ⟨?_, rfl⟩
  intro a b va vb op ha hb hne
  refine ⟨va.compare_to vb op, compare_to_ok_of_parse op ha hb, ?_⟩
  rw [compare_to_ok_of_parse op.invert ha hb]
  unfold Version.compare_to
  rw [evaluateOp_invert hne op]

/-- Witness for C8 at `"1"`, `"2"`, operator Eq. -/
theorem compare_to_invert_consistency_witness :
    ∃ r : Bool,
      VersionCompare.compare_to "1" "2" CompOp.Eq = Except.ok r ∧
      VersionCompare.compare_to "1" "2" CompOp.Eq.invert = Except.ok (!r) :=
  compare_to_invert_consistency.1 "1" "2"
    ⟨"1", [.Numeric 1]⟩ ⟨"2", [.Numeric 2]⟩ CompOp.Eq rfl rfl (by decide)

/-- C9 (inversion table): `invert` maps Eq→Ne, Ne→Eq, Lt→Gt, Gt→Lt,
Le→Ge, Ge→Le, and is an involution. -/
theorem invert_table :
    CompOp.invert CompOp.Eq = CompOp.Ne ∧
    CompOp.invert CompOp.Ne = CompOp.Eq ∧
    CompOp.invert CompOp.Lt = CompOp.Gt ∧
    CompOp.invert CompOp.Gt = CompOp.Lt ∧
    CompOp.invert CompOp.Le = CompOp.Ge ∧
    CompOp.invert CompOp.Ge = CompOp.Le ∧
    ∀ op : CompOp, op.invert.invert = op := by
  refine ⟨rfl, rfl, rfl, rfl, rfl, rfl, ?_⟩
  intro op
  cases op <;> rfl

/-- C10 (equal-versions edge case at the façade): when `compare a b = Eq`,
`compare_to` returns true for Eq, Le, Ge and false for Ne, Lt, Gt; hence
for Le and Ge the operator and its inverse are both true, so the
predicate-consistency negation law does not extend to the Eq case. -/
theorem compare_to_eq_facade (a b : String)
    (h : VersionCompare.compare a b = Except.ok CompOp.Eq) :
    (VersionCompare.compare_to a b CompOp.Eq = Except.ok true ∧
     VersionCompare.compare_to a b CompOp.Le = Except.ok true ∧
     VersionCompare.compare_to a b CompOp.Ge = Except.ok true ∧
     VersionCompare.compare_to a b CompOp.Ne = Except.ok false ∧
     VersionCompare.compare_to a b CompOp.Lt = Except.ok false ∧
     VersionCompare.compare_to a b CompOp.Gt = Except.ok false) ∧
    (VersionCompare.compare_to a b CompOp.Le = Except.ok true ∧
     VersionCompare.compare_to a b CompOp.Le.invert = Except.ok true) ∧
    (VersionCompare.compare_to a b CompOp.Ge = Except.ok true ∧
     VersionCompare.compare_to a b CompOp.Ge.invert = Except.ok true) := by
  obtain ⟨va, vb, hva, hvb, hc⟩ := compare_ok_inv h
  rw [orderingToCompOp_eq_eq] at hc
  have hok : ∀ op : CompOp,
      VersionCompare.compare_to a b op = Except.ok (evaluateOp .eq op) := by
    intro op
    rw [compare_to_ok_of_parse op hva hvb]
    unfold Version.compare_to
    rw [hc]
  rw [hok, hok, hok, hok, hok, hok, hok, hok]
  exact ⟨⟨rfl, rfl, rfl, rfl, rfl, rfl⟩, ⟨rfl, rfl⟩, ⟨rfl, rfl⟩⟩

/-- Witness for C10 at `"1.0"` and `"1"`. -/
theorem compare_to_eq_facade_witness :
    (VersionCompare.compare_to "1.0" "1" CompOp.Eq = Except.ok true ∧
     VersionCompare.compare_to "1.0" "1" CompOp.Le = Except.ok true ∧
     VersionCompare.compare_to "1.0" "1" CompOp.Ge = Except.ok true ∧
     VersionCompare.compare_to "1.0" "1" CompOp.Ne = Except.ok false ∧
     VersionCompare.compare_to "1.0" "1" CompOp.Lt = Except.ok false ∧
     VersionCompare.compare_to "1.0" "1" CompOp.Gt = Except.ok false) ∧
    (VersionCompare.compare_to "1.0" "1" CompOp.Le = Except.ok true ∧
     VersionCompare.compare_to "1.0" "1" CompOp.Le.invert = Except.ok true) ∧
    (VersionCompare.compare_to "1.0" "1" CompOp.Ge = Except.ok true ∧
     VersionCompare.compare_to "1.0" "1" CompOp.Ge.invert = Except.ok true) :=
  compare_to_eq_facade "1.0" "1" rfl
